import Mathlib

/-!
Verification of the Togyz Kumalak rules engine and PUCT search
(`src/game/togyzkumalak.py`, `src/game/encoding.py`, `src/mcts/search.py`).

The Python code is shallowly embedded: Python `int` becomes `ℤ`, Python
lists of nine pit counts become functions `Fin 9 → ℤ`, fallible calls
return `Except`/`Option`, and floating-point search statistics are
modelled over an ordered field (`ℚ` for execution, `ℝ` with `Real.sqrt`
in the statements about the selection formula).
-/

namespace Togyz

/-- Players, `WHITE = 0` and `BLACK = 1` in the Python source. -/
inductive Player where
  | white
  | black
deriving DecidableEq, Repr, Fintype

/-- Embeds `opponent_of` from `togyzkumalak.py`. -/
def opponent_of : Player → Player
  | .white => .black
  | .black => .white

/-- Pit rows: pit counts per player.  Python stores `pits[2][9]` as lists of
Python ints; we use total functions out of `Fin 9` into `ℤ`. -/
abbrev Pits := Player → Fin 9 → ℤ

/-- Embeds the `TogyzKumalakState` dataclass.  Tuzdyk indices are arbitrary
integers (Python never range-checks them; `deserialize_fen` can produce
out-of-range values). -/
structure TogyzKumalakState where
  pits : Pits
  kazans : Player → ℤ
  tuzdyk_indices : Player → Option ℤ
  player_to_move : Player
  move_number : ℤ

instance : DecidableEq TogyzKumalakState := fun a b =>
  decidable_of_iff
    (a.pits = b.pits ∧ a.kazans = b.kazans ∧ a.tuzdyk_indices = b.tuzdyk_indices ∧
      a.player_to_move = b.player_to_move ∧ a.move_number = b.move_number)
    (by cases a; cases b; simp [TogyzKumalakState.mk.injEq])

namespace TogyzKumalakState

/-- Embeds `TogyzKumalakState.initial`. -/
def initial : TogyzKumalakState where
  pits := fun _ _ => 9
  kazans := fun _ => 0
  tuzdyk_indices := fun _ => none
  player_to_move := .white
  move_number := 1

end TogyzKumalakState

/-- Python list indexing `row[idx]` for a nine-element row.  For the indices
`-9 ≤ idx ≤ 8` that actually occur (callers guard the out-of-range case,
which raises `IndexError` in Python), negative indices address the pit
`idx + 9`, which coincides with `idx % 9`. -/
def normIdx (idx : ℤ) : Fin 9 :=
  ⟨(idx % 9).toNat, by
    have h1 : 0 ≤ idx % 9 := Int.emod_nonneg idx (by norm_num)
    have h2 : idx % 9 < 9 := Int.emod_lt_of_pos idx (by norm_num)
    omega⟩

/-- Reads the pit of `side` at Python index `idx`. -/
def getPit (pits : Pits) (side : Player) (idx : ℤ) : ℤ :=
  pits side (normIdx idx)

/-- Writes the pit of `side` at Python index `idx`. -/
def setPit (pits : Pits) (side : Player) (idx : ℤ) (v : ℤ) : Pits :=
  fun pl => if pl = side then Function.update (pits side) (normIdx idx) v else pits pl

/-- Adds one stone to the pit of `side` at `idx` (the `pits[cur][i] += 1`
steps of the sowing loop). -/
def bumpPit (pits : Pits) (side : Player) (idx : ℤ) : Pits :=
  setPit pits side idx (getPit pits side idx + 1)

/-- Adds `v` stones to the kazan of `pl` (`kazans[owner] += v`). -/
def creditKazan (kaz : Player → ℤ) (pl : Player) (v : ℤ) : Player → ℤ :=
  fun q => if q = pl then kaz pl + v else kaz q

/-- Embeds the local helper `tuzdyk_owner_at` of `apply_move`: the owner of a
tuzdyk sitting at board square `(side, idx)`, if any.  Indices are compared
raw, exactly as Python compares `tuzdyk_indices[p] == local_index`. -/
def tuzdykOwnerAt (tuz : Player → Option ℤ) (side : Player) (idx : ℤ) :
    Option Player :=
  if tuz .white = some idx ∧ side = .black then some .white
  else if tuz .black = some idx ∧ side = .white then some .black
  else none

/-- Board positions during sowing: a side and a raw (possibly negative)
local index, as in the Python `(side, local_index)` pairs. -/
abbrev Pos := Player × ℤ

/-- Embeds the local helper `next_pos` of `apply_move`. -/
def nextPos (p : Pos) : Pos :=
  if p.2 = 8 then (opponent_of p.1, 0) else (p.1, p.2 + 1)

/-- Embeds the sowing `while stones_to_sow > 0` loop of `apply_move`:
drops `n` stones starting at `cur`, crediting tuzdyk owners directly and
recording the last pit actually incremented in `last`. -/
def sowLoop (tuz : Player → Option ℤ) :
    ℕ → Pits → (Player → ℤ) → Pos → Pos → Pits × (Player → ℤ) × Pos
  | 0, pits, kaz, _cur, last => (pits, kaz, last)
  | n + 1, pits, kaz, cur, last =>
    match tuzdykOwnerAt tuz cur.1 cur.2 with
    | some owner => sowLoop tuz n pits (creditKazan kaz owner 1) (nextPos cur) last
    | none => sowLoop tuz n (bumpPit pits cur.1 cur.2) kaz (nextPos cur) cur

/-- Embeds `TogyzKumalakState._can_create_tuzdyk`. -/
def canCreateTuzdyk (tuz : Player → Option ℤ) (mover : Player) (idx : ℤ) : Bool :=
  if (tuz mover).isSome then false
  else if idx = 8 then false
  else if tuz (opponent_of mover) = some idx then false
  else true

/-- Embeds the post-sowing capture / tuzdyk-creation block of `apply_move`
(lines 180-193 of `togyzkumalak.py`). -/
def resolveCapture (mover opp : Player) (tuz : Player → Option ℤ)
    (pits : Pits) (kaz : Player → ℤ) (last : Pos) :
    Pits × (Player → ℤ) × (Player → Option ℤ) :=
  if last.1 = opp ∧ tuzdykOwnerAt tuz last.1 last.2 = none then
    if getPit pits opp last.2 = 3 ∧ canCreateTuzdyk tuz mover last.2 = true then
      (setPit pits opp last.2 0, creditKazan kaz mover 3,
        fun q => if q = mover then some last.2 else tuz q)
    else if getPit pits opp last.2 % 2 = 0 ∧ 0 < getPit pits opp last.2 then
      (setPit pits opp last.2 0, creditKazan kaz mover (getPit pits opp last.2), tuz)
    else (pits, kaz, tuz)
  else (pits, kaz, tuz)

/-- Errors raised by `apply_move`: Python raises `IndexError` for a pit
index outside `-9..8` (list access) and `ValueError("Illegal move: selected
pit is empty")` for an empty selected pit. -/
inductive MoveError where
  | indexError
  | illegalMove
deriving DecidableEq, Repr

/-- Embeds the pickup-and-sow phase of `apply_move`: zero the chosen pit,
return one stone to it when more than one stone was picked up, and sow the
rest starting just after the origin, returning the final pits, kazans and
last incremented cell. -/
def sowStage (s : TogyzKumalakState) (p : ℤ) : Pits × (Player → ℤ) × Pos :=
  sowLoop s.tuzdyk_indices
    (if 1 < getPit s.pits s.player_to_move p
      then (getPit s.pits s.player_to_move p - 1).toNat
      else (getPit s.pits s.player_to_move p).toNat)
    (if 1 < getPit s.pits s.player_to_move p
      then bumpPit (setPit s.pits s.player_to_move p 0) s.player_to_move p
      else setPit s.pits s.player_to_move p 0)
    s.kazans
    (nextPos (s.player_to_move, p))
    (nextPos (s.player_to_move, p))

/-- Embeds `TogyzKumalakState.apply_move`.  The first guard models the
`IndexError` Python raises when reading `pits[mover][pit_index]` with an
index outside `-9..8`; the second is the explicit empty-pit check. -/
def applyMove (s : TogyzKumalakState) (p : ℤ) : Except MoveError TogyzKumalakState :=
  if 8 < p ∨ p < -9 then .error .indexError
  else if getPit s.pits s.player_to_move p ≤ 0 then .error .illegalMove
  else
    let mover := s.player_to_move
    let opp := opponent_of mover
    let sown := sowStage s p
    let res := resolveCapture mover opp s.tuzdyk_indices sown.1 sown.2.1 sown.2.2
    .ok { pits := res.1
          kazans := res.2.1
          tuzdyk_indices := res.2.2
          player_to_move := opp
          move_number := s.move_number + 1 }

/-- Sum of one row of pits. -/
def sumPits (f : Fin 9 → ℤ) : ℤ := ∑ i : Fin 9, f i

/-- Embeds `TogyzKumalakState.has_legal_move` (`any(stones > 0 ...)`). -/
def hasLegalMove (s : TogyzKumalakState) : Bool :=
  decide (∃ i : Fin 9, 0 < s.pits s.player_to_move i)

/-- Embeds `TogyzKumalakState.legal_moves`: indices `0..8` of the mover's
non-empty pits, in ascending order. -/
def legalMoves (s : TogyzKumalakState) : List ℕ :=
  (List.range 9).filter (fun i => decide (0 < getPit s.pits s.player_to_move i))

/-- Embeds `TogyzKumalakState.is_terminal`. -/
def is_terminal (s : TogyzKumalakState) : Bool :=
  decide (82 ≤ s.kazans .white) || decide (82 ≤ s.kazans .black) || !(hasLegalMove s)

/-- Embeds `TogyzKumalakState.final_scores`. -/
def final_scores (s : TogyzKumalakState) : ℤ × ℤ :=
  if 82 ≤ s.kazans .white ∨ 82 ≤ s.kazans .black then
    (s.kazans .white, s.kazans .black)
  else if hasLegalMove s = false then
    (if opponent_of s.player_to_move = .white then
      (s.kazans .white + sumPits (s.pits (opponent_of s.player_to_move)),
        s.kazans .black + sumPits (s.pits s.player_to_move))
    else
      (s.kazans .white + sumPits (s.pits s.player_to_move),
        s.kazans .black + sumPits (s.pits (opponent_of s.player_to_move))))
  else (s.kazans .white, s.kazans .black)

/-- Embeds `TogyzKumalakState.outcome`: a total function, `none` both for a
non-terminal state and for a terminal draw. -/
def outcome (s : TogyzKumalakState) : Option Player :=
  if is_terminal s = true then
    if (final_scores s).2 < (final_scores s).1 then some .white
    else if (final_scores s).1 < (final_scores s).2 then some .black
    else none
  else none

/-- Result of `apply_move(initial, -1)`: Python's negative list indexing
turns pit index `-1` into the mover's pit 8, so the call succeeds. -/
def negIndexResult : TogyzKumalakState where
  pits := fun pl i => if pl = .white then (if i.val = 8 then 1 else 10) else 9
  kazans := fun _ => 0
  tuzdyk_indices := fun _ => none
  player_to_move := .black
  move_number := 2

/-- Scenario 5 of the spec: White (side A) to move with an empty row,
Black holding `[1,2,3,4,0,0,0,0,0]`, kazans `(10, 20)`. -/
def atsyrauExample : TogyzKumalakState where
  pits := fun pl i =>
    if pl = .white then 0 else [1, 2, 3, 4, 0, 0, 0, 0, 0].getD i.val 0
  kazans := fun pl => if pl = .white then 10 else 20
  tuzdyk_indices := fun _ => none
  player_to_move := .white
  move_number := 5

/-- Pits after the sowing phase of `apply_move` (before capture resolution). -/
def sownPits (s : TogyzKumalakState) (p : ℤ) : Pits := (sowStage s p).1

/-- Kazans after the sowing phase of `apply_move`. -/
def sownKazans (s : TogyzKumalakState) (p : ℤ) : Player → ℤ := (sowStage s p).2.1

/-- Last cell whose pit count was actually incremented during sowing
(`last_side, last_idx` in the Python source). -/
def lastCell (s : TogyzKumalakState) (p : ℤ) : Pos := (sowStage s p).2.2

/-- Stone count of the last affected cell after sowing, read on the
opponent's row. -/
def lastStones (s : TogyzKumalakState) (p : ℤ) : ℤ :=
  getPit (sownPits s p) (opponent_of s.player_to_move) (lastCell s p).2

/-- Position used to exercise the tuzdyk-creation branch: White's pit 8
holds one stone, Black's pit 0 holds two. -/
def tuzdykScenario : TogyzKumalakState where
  pits := fun pl i =>
    if pl = .white then (if i.val = 8 then 1 else 0)
    else (if i.val = 0 then 2 else 0)
  kazans := fun _ => 0
  tuzdyk_indices := fun _ => none
  player_to_move := .white
  move_number := 1

/-- State reached from `tuzdykScenario` by playing pit 8: the single stone
lands on Black's pit 0 making it 3, a tuzdyk is created there. -/
def tuzdykScenarioNext : TogyzKumalakState where
  pits := fun _ _ => 0
  kazans := fun pl => if pl = .white then 3 else 0
  tuzdyk_indices := fun pl => if pl = .white then some 0 else none
  player_to_move := .black
  move_number := 2

/-- Total stones held by a pits/kazans pair. -/
def boardTotal (pits : Pits) (kaz : Player → ℤ) : ℤ :=
  sumPits (pits .white) + sumPits (pits .black) + kaz .white + kaz .black

/-- Total stones on the board and in both kazans of a state. -/
def totalSeeds (s : TogyzKumalakState) : ℤ := boardTotal s.pits s.kazans

instance {α : Type _} [DecidableEq α] : DecidableEq (Option α) := fun a b =>
  match a, b with
  | none, none => .isTrue rfl
  | none, some _ => .isFalse (fun hh => Option.noConfusion hh)
  | some _, none => .isFalse (fun hh => Option.noConfusion hh)
  | some x, some y =>
      if h : x = y then .isTrue (h ▸ rfl)
      else .isFalse (fun hh => h (by injection hh))

instance {ε α : Type _} [DecidableEq ε] [DecidableEq α] :
    DecidableEq (Except ε α) := fun a b =>
  match a, b with
  | .error e, .error f =>
      if h : e = f then .isTrue (h ▸ rfl)
      else .isFalse (fun hh => h (by injection hh))
  | .error _, .ok _ => .isFalse (fun hh => Except.noConfusion hh)
  | .ok _, .error _ => .isFalse (fun hh => Except.noConfusion hh)
  | .ok x, .ok y =>
      if h : x = y then .isTrue (h ▸ rfl)
      else .isFalse (fun hh => h (by injection hh))

/-- Reachable states: produced by `initial()` or by a legal `apply_move`
(action in `0..8`) from a reachable state. -/
inductive Reachable : TogyzKumalakState → Prop where
  | init : Reachable TogyzKumalakState.initial
  | step (s : TogyzKumalakState) (p : ℤ) (s' : TogyzKumalakState) :
      Reachable s → 0 ≤ p → p ≤ 8 → applyMove s p = .ok s' → Reachable s'

/-- Embeds `mirror_state` from `encoding.py`. -/
def mirror_state (s : TogyzKumalakState) : TogyzKumalakState where
  pits := fun pl => match pl with
    | .white => s.pits .black
    | .black => s.pits .white
  kazans := fun pl => match pl with
    | .white => s.kazans .black
    | .black => s.kazans .white
  tuzdyk_indices := fun pl => match pl with
    | .white => s.tuzdyk_indices .black
    | .black => s.tuzdyk_indices .white
  player_to_move := opponent_of s.player_to_move
  move_number := s.move_number

/-- Embeds `canonicalize` from `encoding.py`. -/
def canonicalize (s : TogyzKumalakState) : TogyzKumalakState :=
  if s.player_to_move = .white then s else mirror_state s

/-- Embeds `digitVal`: the value of a decimal digit character, the digits
Python's `int()` accepts for our rendered strings. -/
def digitVal (c : Char) : Option ℕ :=
  if c = '0' then some 0 else if c = '1' then some 1 else if c = '2' then some 2
  else if c = '3' then some 3 else if c = '4' then some 4 else if c = '5' then some 5
  else if c = '6' then some 6 else if c = '7' then some 7 else if c = '8' then some 8
  else if c = '9' then some 9 else none

/-- Decimal digit character of `d < 10` (used by `str(int)` rendering). -/
def digitChar (d : ℕ) : Char :=
  match d with
  | 0 => '0' | 1 => '1' | 2 => '2' | 3 => '3' | 4 => '4'
  | 5 => '5' | 6 => '6' | 7 => '7' | 8 => '8' | _ => '9'

/-- Fuel-driven digit accumulation; `fuel > n` always suffices since the
argument shrinks by a factor of ten each step. -/
def natToCharsAux : ℕ → ℕ → List Char → List Char
  | 0, _n, acc => acc
  | fuel + 1, n, acc =>
    if n < 10 then digitChar n :: acc
    else natToCharsAux fuel (n / 10) (digitChar (n % 10) :: acc)

/-- Decimal rendering of a natural number, most significant digit first,
as Python's `str` produces for non-negative ints. -/
def natToChars (n : ℕ) : List Char := natToCharsAux (n + 1) n []

/-- Accumulator loop of decimal parsing. -/
def parseNatAux : List Char → ℕ → Option ℕ
  | [], acc => some acc
  | c :: cs, acc =>
    match digitVal c with
    | some d => parseNatAux cs (acc * 10 + d)
    | none => none

/-- Parses a non-empty all-digit string, as Python's `int()` does on an
unsigned decimal literal. -/
def parseNat : List Char → Option ℕ
  | [] => none
  | c :: cs => parseNatAux (c :: cs) 0

/-- Embeds Python's `int(text)` for the strings this codebase produces and
consumes: an optional leading `-` followed by decimal digits.  (Python also
strips whitespace and accepts `+` and underscores; no string handled or
produced by `encoding.py` uses those forms.) -/
def pyInt : List Char → Option ℤ
  | [] => none
  | c :: rest =>
    if c = '-' then (parseNat rest).map (fun m => -(m : ℤ))
    else (parseNat (c :: rest)).map (fun m => (m : ℤ))

/-- Embeds Python's `str(int)`. -/
def intToChars (z : ℤ) : List Char :=
  if z < 0 then '-' :: natToChars (-z).toNat else natToChars z.toNat

/-- Embeds Python's `text.split(sep)` for a one-character separator. -/
def pySplit (sep : Char) : List Char → List (List Char)
  | [] => [[]]
  | c :: cs =>
    if c = sep then [] :: pySplit sep cs
    else
      match pySplit sep cs with
      | [] => [[c]]
      | g :: gs => (c :: g) :: gs

/-- Embeds Python's `sep.join(parts)` for a one-character separator. -/
def joinSep (sep : Char) : List (List Char) → List Char
  | [] => []
  | [x] => x
  | x :: y :: rest => x ++ sep :: joinSep sep (y :: rest)

/-- Embeds the `tuz` lambda of `serialize_fen`: `-` for `None`, else the
decimal index. -/
def tuzChars : Option ℤ → List Char
  | none => ['-']
  | some v => intToChars v

/-- Embeds `"-".join(str(x) for x in pits_row)`. -/
def rowChars (f : Fin 9 → ℤ) : List Char :=
  joinSep '-' [intToChars (f 0), intToChars (f 1), intToChars (f 2),
    intToChars (f 3), intToChars (f 4), intToChars (f 5), intToChars (f 6),
    intToChars (f 7), intToChars (f 8)]

/-- Embeds `serialize_fen` from `encoding.py` at the character-list level:
`W|w_pits,b_pits|kzW,kzB|tuzW,tuzB|m`. -/
def serializeFen (s : TogyzKumalakState) : List Char :=
  joinSep '|' [
    [if s.player_to_move = .white then 'W' else 'B'],
    joinSep ',' [rowChars (s.pits .white), rowChars (s.pits .black)],
    joinSep ',' [intToChars (s.kazans .white), intToChars (s.kazans .black)],
    joinSep ',' [tuzChars (s.tuzdyk_indices .white), tuzChars (s.tuzdyk_indices .black)],
    intToChars s.move_number]

/-- Parses one dash-separated pit row (`[int(x) for x in row.split("-")]`).
Python builds a state from a row of any length; our state type fixes nine
pits per side, so other lengths are rejected here — every string examined
by the theorems below carries exactly nine pits per row. -/
def mapIntList : List (List Char) → Option (List ℤ)
  | [] => some []
  | x :: xs =>
    match pyInt x, mapIntList xs with
    | some v, some vs => some (v :: vs)
    | _, _ => none

def parseRow (l : List Char) : Option (Fin 9 → ℤ) :=
  (mapIntList (pySplit '-' l)).bind (fun vs =>
    if vs.length = 9 then some (fun i => vs.getD i.val 0) else none)

/-- Embeds `None if tok == "-" else int(tok)` for a tuzdyk field. -/
def parseTuz (l : List Char) : Option (Option ℤ) :=
  if l = ['-'] then some none
  else (pyInt l).map some

/-- Embeds `deserialize_fen` from `encoding.py`.  Failure (`none`) models a
Python `ValueError` from tuple unpacking or `int()`; note that no range or
seed-sum validation is performed, mirroring the source. -/
def deserializeFen (l : List Char) : Option TogyzKumalakState :=
  match pySplit '|' l with
  | [side, pitsStr, kazStr, tuzStr, mvStr] =>
    match pySplit ',' pitsStr with
    | [wp, bp] =>
      match parseRow wp, parseRow bp with
      | some w, some b =>
        match pySplit ',' kazStr with
        | [kw, kb] =>
          match pyInt kw, pyInt kb with
          | some vw, some vb =>
            match pySplit ',' tuzStr with
            | [tw, tb] =>
              match parseTuz tw, parseTuz tb with
              | some tvw, some tvb =>
                match pyInt mvStr with
                | some mv =>
                  some { pits := fun pl => match pl with
                           | .white => w
                           | .black => b
                         kazans := fun pl => match pl with
                           | .white => vw
                           | .black => vb
                         tuzdyk_indices := fun pl => match pl with
                           | .white => tvw
                           | .black => tvb
                         player_to_move := if side = ['W'] then .white else .black
                         move_number := mv }
                | none => none
              | _, _ => none
            | _ => none
          | _, _ => none
        | _ => none
      | _, _ => none
    | _ => none
  | _ => none

/-- State with an empty board and empty kazans: its seed sum is 0, not
162, yet its serialized form deserializes successfully. -/
def zeroState : TogyzKumalakState where
  pits := fun _ _ => 0
  kazans := fun _ => 0
  tuzdyk_indices := fun _ => none
  player_to_move := .white
  move_number := 1

/-- Embeds the tuple produced by `state_key` in `encoding.py`: pits of both
sides, kazans, tuzdyk indices and player to move — no move number. -/
structure StateKey where
  wp : List ℤ
  bp : List ℤ
  kzw : ℤ
  kzb : ℤ
  tw : Option ℤ
  tb : Option ℤ
  ptm : Player
deriving DecidableEq

/-- Embeds `tuple(state.pits[side])`. -/
def rowList (f : Fin 9 → ℤ) : List ℤ :=
  [f 0, f 1, f 2, f 3, f 4, f 5, f 6, f 7, f 8]

/-- Embeds `state_key` from `encoding.py`. -/
def state_key (s : TogyzKumalakState) : StateKey where
  wp := rowList (s.pits .white)
  bp := rowList (s.pits .black)
  kzw := s.kazans .white
  kzb := s.kazans .black
  tw := s.tuzdyk_indices .white
  tb := s.tuzdyk_indices .black
  ptm := s.player_to_move

/-- Embeds the `Node` dataclass of `search.py`, generically over the
numeric type used for priors and value sums (`ℚ` when executing the
search, `ℝ` in the statements about the selection formula). -/
inductive Node (α : Type) where
  | mk (prior : α) (state? : Option TogyzKumalakState) (visit_count : ℕ)
      (value_sum : α) (children : List (ℕ × Node α))

namespace Node

def prior {α : Type} : Node α → α
  | mk p _ _ _ _ => p

def visitCount {α : Type} : Node α → ℕ
  | mk _ _ v _ _ => v

def valueSum {α : Type} : Node α → α
  | mk _ _ _ v _ => v

def children {α : Type} : Node α → List (ℕ × Node α)
  | mk _ _ _ _ c => c

def setChildren {α : Type} : Node α → List (ℕ × Node α) → Node α
  | mk p s v q _, c => mk p s v q c

def setPrior {α : Type} : Node α → α → Node α
  | mk _ s v q c, p => mk p s v q c

/-- Embeds the `value` property: `0.0 if visit_count == 0 else
value_sum / visit_count`. -/
def value {α : Type} [DivisionRing α] (n : Node α) : α :=
  if n.visitCount = 0 then 0 else n.valueSum / (n.visitCount : α)

/-- Embeds the backpropagation update `visit_count += 1;
value_sum += value`. -/
def addVisit {α : Type} [Add α] : Node α → α → Node α
  | mk p s vc vs c, v => mk p s (vc + 1) (vs + v) c

end Node

/-- Embeds `total_visits = 1 + sum(child.visit_count for child in
node.children.values())` in `_select_child`. -/
def selectTotal {α : Type} (children : List (ℕ × Node α)) : ℕ :=
  1 + (children.map (fun pr => pr.2.visitCount)).sum

/-- Embeds the per-child score of `_select_child`:
`child.value + c_puct * child.prior * sqrt(total_visits) / (1 + child.visit_count)`. -/
def puctScore {α : Type} [LinearOrderedField α] (cpuct : α) (sqrtFn : α → α)
    (total : ℕ) (child : Node α) : α :=
  child.value + cpuct * child.prior * sqrtFn (total : α) / (1 + (child.visitCount : α))

/-- Fold of `_select_child`, seeded with Python's `best_score = -1e9` and
`best_action = None`; strict improvement keeps the first maximum. -/
def selFold {α : Type} [LinearOrderedField α] (g : ℕ × Node α → α)
    (l : List (ℕ × Node α)) (init : α × Option ℕ) : α × Option ℕ :=
  l.foldl (fun best pr => if best.1 < g pr then (g pr, some pr.1) else best) init

/-- Embeds `MCTS._select_child` (returning `none` where Python's assertion
would fail because no child scored above `-1e9`). -/
def selectChild {α : Type} [LinearOrderedField α] (cpuct : α) (sqrtFn : α → α)
    (children : List (ℕ × Node α)) : Option ℕ :=
  (selFold (fun pr => puctScore cpuct sqrtFn (selectTotal children) pr.2)
    children (-(10 ^ 9 : α), none)).2

/-- Inference callbacks `state -> (policy, value)`, with float statistics
modelled over `ℚ`. -/
abbrev InferFn := TogyzKumalakState → List ℚ × ℚ

/-- Transposition table `self._table`, an association list keyed by
canonical state keys (Python uses a dict; only key lookup and insertion
are performed, so ordering is irrelevant). -/
abbrev Table := List (StateKey × Node ℚ)

def lookupTable : Table → StateKey → Option (Node ℚ)
  | [], _ => none
  | (k, n) :: t, key => if k = key then some n else lookupTable t key

def setTable : Table → StateKey → Node ℚ → Table
  | [], key, n => [(key, n)]
  | (k, m) :: t, key, n =>
    if k = key then (key, n) :: t else (k, m) :: setTable t key n

/-- Embeds `MCTS._get_or_create_node`. -/
def getOrCreateNode (t : Table) (s : TogyzKumalakState) : Node ℚ × Table :=
  match lookupTable t (state_key (canonicalize s)) with
  | some n => (n, t)
  | none =>
    (Node.mk 1 (some s) 0 0 [],
      setTable t (state_key (canonicalize s)) (Node.mk 1 (some s) 0 0 []))

/-- Embeds `dict.setdefault(a, node)` on a children map kept in insertion
order. -/
def childSetdefault (cs : List (ℕ × Node ℚ)) (a : ℕ) (n : Node ℚ) :
    List (ℕ × Node ℚ) :=
  if (cs.find? (fun pr => pr.1 == a)).isSome then cs else cs ++ [(a, n)]

/-- Embeds `MCTS._ensure_expanded`; the returned node is written back into
the table by the callers, modelling Python's in-place mutation.
`policy[a]` is modelled by `getD` (the evaluator supplies nine priors). -/
def ensureExpanded (f : InferFn) (n : Node ℚ) (s : TogyzKumalakState) : Node ℚ :=
  if n.children.isEmpty = false ∨ is_terminal s = true then n
  else
    match f (canonicalize s) with
    | (policy, _) =>
      n.setChildren ((legalMoves s).foldl
        (fun cs a => childSetdefault cs a (Node.mk (policy.getD a 0) none 0 0 []))
        n.children)

/-- Terminal leaf value of `MCTS._evaluate`: `+1` when the outcome favors
the state's mover, `-1` when it favors the opponent, `0` on a draw. -/
def terminalValue (s : TogyzKumalakState) : ℚ :=
  match outcome s with
  | none => 0
  | some w => if w = s.player_to_move then 1 else -1

/-- Embeds `MCTS._evaluate`: terminal states never reach the inference
function; otherwise the node for `s` is created/expanded and the
evaluator's value returned. -/
def mctsEvaluate (f : InferFn) (s : TogyzKumalakState) (t : Table) : ℚ × Table :=
  if is_terminal s = true then (terminalValue s, t)
  else
    if ((getOrCreateNode t s).1).children.isEmpty then
      ((f (canonicalize s)).2,
        setTable (getOrCreateNode t s).2 (state_key (canonicalize s))
          (((getOrCreateNode t s).1).setChildren ((List.range 9).foldl
            (fun cs a => if a ∈ legalMoves s then
                childSetdefault cs a
                  (Node.mk ((f (canonicalize s)).1.getD a 0) none 0 0 [])
              else cs)
            ((getOrCreateNode t s).1).children)))
    else ((f (canonicalize s)).2, (getOrCreateNode t s).2)

/-- Embeds `parent.children[action].visit_count += 1; ... value_sum += v`. -/
def updateChildStats (cs : List (ℕ × Node ℚ)) (a : ℕ) (v : ℚ) :
    List (ℕ × Node ℚ) :=
  cs.map (fun pr => if pr.1 = a then (pr.1, pr.2.addVisit v) else pr)

/-- Embeds the backpropagation loop of `MCTS._simulate` over the reversed
path, flipping the sign at each step. -/
def backprop : Table → ℚ → List (StateKey × ℕ) → Table
  | t, _, [] => t
  | t, v, (k, a) :: rest =>
    backprop
      (match lookupTable t k with
       | some n => setTable t k (n.setChildren (updateChildStats n.children a v))
       | none => t)
      (-v) rest

/-- Embeds the selection loop of `MCTS._simulate`.  `fuel` bounds the
descent (Python's `while True` has no such bound; every terminating Python
run is reproduced with enough fuel).  A failing `apply_move` would raise in
Python, aborting the simulation with the table as already mutated (`inl`). -/
def descend (f : InferFn) (cpuct : ℚ) (sqrtFn : ℚ → ℚ) :
    ℕ → TogyzKumalakState → Table → List (StateKey × ℕ) →
      Table ⊕ (TogyzKumalakState × Table × List (StateKey × ℕ))
  | 0, s, t, path => .inr (s, t, path)
  | fuel + 1, s, t, path =>
    let n1 := ensureExpanded f (getOrCreateNode t s).1 s
    let t2 := setTable (getOrCreateNode t s).2 (state_key (canonicalize s)) n1
    if n1.children.isEmpty then .inr (s, t2, path)
    else
      match selectChild cpuct sqrtFn n1.children with
      | none => .inr (s, t2, path)
      | some a =>
        match applyMove s (a : ℤ) with
        | .error _ => .inl t2
        | .ok s2 =>
          if is_terminal s2 = true then
            .inr (s2, (getOrCreateNode t2 s2).2, path ++ [(state_key (canonicalize s), a)])
          else
            descend f cpuct sqrtFn fuel s2 (getOrCreateNode t2 s2).2
              (path ++ [(state_key (canonicalize s), a)])

/-- Table of a `descend` result. -/
def descendTable :
    Table ⊕ (TogyzKumalakState × Table × List (StateKey × ℕ)) → Table
  | .inl t => t
  | .inr (_, t, _) => t

/-- Embeds `MCTS._simulate`: descend, evaluate the leaf, backpropagate. -/
def simulate (f : InferFn) (cpuct : ℚ) (sqrtFn : ℚ → ℚ) (fuel : ℕ)
    (root : TogyzKumalakState) (t : Table) : Table :=
  match descend f cpuct sqrtFn fuel root t [] with
  | .inl tAbort => tAbort
  | .inr (leaf, t1, path) =>
    backprop (mctsEvaluate f leaf t1).2 (mctsEvaluate f leaf t1).1 path.reverse

/-- Embeds the `for _ in range(num_simulations)` loop of `MCTS.search`. -/
def runSims (f : InferFn) (cpuct : ℚ) (sqrtFn : ℚ → ℚ) (fuel : ℕ)
    (root : TogyzKumalakState) : ℕ → Table → Table
  | 0, t => t
  | m + 1, t => runSims f cpuct sqrtFn fuel root m (simulate f cpuct sqrtFn fuel root t)

/-- Embeds `zip(actions, noise)` prior mixing of `_add_root_dirichlet`;
the Dirichlet draw itself is randomness injected by the caller. -/
def mixNoise (frac : ℚ) : List (ℕ × Node ℚ) → List ℚ → List (ℕ × Node ℚ)
  | cs, [] => cs
  | [], _ => []
  | (a, c) :: cs, e :: es =>
    (a, c.setPrior ((1 - frac) * c.prior + frac * e)) :: mixNoise frac cs es

/-- Embeds `MCTS._add_root_dirichlet`. -/
def addRootDirichlet (frac : ℚ) (noise : List ℚ) (root : Node ℚ) : Node ℚ :=
  if root.children.isEmpty then root
  else root.setChildren (mixNoise frac root.children noise)

/-- Embeds `MCTS.search`.  The engine's constructor state reduces to the
incoming `t : Table` (`__init__` sets `self._table = {}` once; `search`
never clears it), and the updated table is returned alongside the policy,
modelling the mutated `self._table` attribute. -/
def mctsSearch (f : InferFn) (cpuct frac : ℚ) (sqrtFn : ℚ → ℚ)
    (numSims fuel : ℕ) (noise : List ℚ) (t : Table)
    (root : TogyzKumalakState) : List ℚ × Table :=
  let n2 := addRootDirichlet frac noise (ensureExpanded f (getOrCreateNode t root).1 root)
  let t2 := setTable (getOrCreateNode t root).2 (state_key (canonicalize root)) n2
  let t3 := runSims f cpuct sqrtFn fuel root numSims t2
  let rootN := (lookupTable t3 (state_key (canonicalize root))).getD
    (Node.mk 1 none 0 0 [])
  let counts : List ℚ := (List.range 9).map (fun a =>
    match rootN.children.find? (fun pr => pr.1 == a) with
    | some pr => (pr.2.visitCount : ℚ)
    | none => 0)
  if counts.sum ≤ 0 then
    ((List.range 9).map (fun a =>
      if a ∈ legalMoves root then 1 / ((legalMoves root).length : ℚ) else 0), t3)
  else (counts.map (fun c => c / counts.sum), t3)

/-- Uniform-prior, zero-value evaluator (the shape of `dummy_inference` in
the tests). -/
def uniformInfer : InferFn := fun _ => (List.replicate 9 ((1 : ℚ) / 9), 0)

/-- Score formula as the claim words it, for comparison with the code:
`parent_total_visits` read as the parent node's own visit-count field
(instantiated with `Real.sqrt` in the statements below). -/
def claimPuctScore {α : Type} [LinearOrderedField α] (cpuct : α)
    (sqrtFn : α → α) (parent child : Node α) : α :=
  child.value + cpuct * child.prior * sqrtFn (parent.visitCount : α)
    / (1 + (child.visitCount : α))

/-- Parent node exhibiting the divergence between the code's
`1 + sum of child visits` and the claim's parent visit count (0 here, as
for every node stored in the transposition table). -/
def parentC6 {α : Type} [LinearOrderedField α] : Node α :=
  Node.mk 1 none 0 0
    [(0, Node.mk 0 none 0 0 []), (1, Node.mk (1 / 2) none 0 0 [])]

section ConservationLemmas

lemma sum_update (f : Fin 9 → ℤ) (j : Fin 9) (v : ℤ) :
    (∑ i : Fin 9, Function.update f j v i) = (∑ i : Fin 9, f i) + v - f j := by
  rw [Finset.sum_update_of_mem (Finset.mem_univ j), Finset.sdiff_singleton_eq_erase,
    ← Finset.sum_erase_add _ f (Finset.mem_univ j)]
  ring

lemma boardTotal_setPit (pits : Pits) (kaz : Player → ℤ) (side : Player)
    (idx : ℤ) (v : ℤ) :
    boardTotal (setPit pits side idx v) kaz
      = boardTotal pits kaz + v - getPit pits side idx := by
  cases side <;>
    · simp [boardTotal, setPit, getPit, sumPits, sum_update]
      ring

lemma boardTotal_creditKazan (pits : Pits) (kaz : Player → ℤ) (pl : Player)
    (v : ℤ) :
    boardTotal pits (creditKazan kaz pl v) = boardTotal pits kaz + v := by
  cases pl <;> simp [boardTotal, creditKazan] <;> ring

lemma boardTotal_bumpPit (pits : Pits) (kaz : Player → ℤ) (side : Player)
    (idx : ℤ) :
    boardTotal (bumpPit pits side idx) kaz = boardTotal pits kaz + 1 := by
  rw [bumpPit, boardTotal_setPit]; ring

lemma boardTotal_sowLoop (tuz : Player → Option ℤ) (n : ℕ) (pits : Pits)
    (kaz : Player → ℤ) (cur last : Pos) :
    boardTotal (sowLoop tuz n pits kaz cur last).1
        (sowLoop tuz n pits kaz cur last).2.1
      = boardTotal pits kaz + n := by
  induction n generalizing pits kaz cur last with
  | zero => simp [sowLoop]
  | succ m ih =>
    rw [sowLoop]
    cases h : tuzdykOwnerAt tuz cur.1 cur.2 with
    | some owner =>
      rw [ih, boardTotal_creditKazan]; push_cast; ring
    | none =>
      rw [ih, boardTotal_bumpPit]; push_cast; ring

lemma boardTotal_resolveCapture (mover opp : Player) (tuz : Player → Option ℤ)
    (pits : Pits) (kaz : Player → ℤ) (last : Pos) :
    boardTotal (resolveCapture mover opp tuz pits kaz last).1
        (resolveCapture mover opp tuz pits kaz last).2.1
      = boardTotal pits kaz := by
  rw [resolveCapture]
  split
  · split
    · rename_i h3
      rw [boardTotal_creditKazan, boardTotal_setPit, h3.1]; ring
    · split
      · rename_i heven
        rw [boardTotal_creditKazan, boardTotal_setPit]; ring
      · rfl
  · rfl

/-- Seed conservation for every successful `apply_move` call, whatever the
incoming total was. -/
lemma totalSeeds_applyMove (s : TogyzKumalakState) (p : ℤ)
    (s' : TogyzKumalakState) (h : applyMove s p = .ok s') :
    totalSeeds s' = totalSeeds s := by
  rw [applyMove] at h
  split at h
  · exact Except.noConfusion h
  · split at h
    · exact Except.noConfusion h
    · rename_i hidx hpit
      simp only [Except.ok.injEq] at h
      subst h
      simp only [totalSeeds]
      rw [boardTotal_resolveCapture]
      push_neg at hpit
      simp only [sowStage]
      rw [boardTotal_sowLoop]
      by_cases hk : 1 < getPit s.pits s.player_to_move p
      · rw [if_pos hk, if_pos hk, boardTotal_bumpPit, boardTotal_setPit]
        have : ((getPit s.pits s.player_to_move p - 1).toNat : ℤ)
            = getPit s.pits s.player_to_move p - 1 := by omega
        rw [this]; ring
      · rw [if_neg hk, if_neg hk, boardTotal_setPit]
        have : ((getPit s.pits s.player_to_move p).toNat : ℤ)
            = getPit s.pits s.player_to_move p := by omega
        rw [this]; ring

end ConservationLemmas

/-- C1: seed conservation.  For every state whose pits and kazans sum to 162
and every legal action (index in `0..8`, mover's pit non-empty), the state
returned by `apply_move` again sums to 162. -/
theorem seed_conservation (s : TogyzKumalakState) (p : ℤ)
    (hp0 : 0 ≤ p) (hp8 : p ≤ 8)
    (hne : 0 < getPit s.pits s.player_to_move p)
    (h162 : totalSeeds s = 162)
    (s' : TogyzKumalakState) (h : applyMove s p = .ok s') :
    totalSeeds s' = 162 := by
  rw [totalSeeds_applyMove s p s' h, h162]

/-- Witness for C1: applying move 0 from the initial position conserves the
162 stones. -/
theorem seed_conservation_witness :
    totalSeeds
      { pits := fun pl i =>
          if pl = .white then (if i.val = 0 then 1 else 10) else 9
        kazans := fun _ => 0
        tuzdyk_indices := fun _ => none
        player_to_move := .black
        move_number := 2 } = 162 :=
  seed_conservation TogyzKumalakState.initial 0 (by decide) (by decide)
    (by decide) (by decide) _ (by decide)

lemma canCreateTuzdyk_iff (tuz : Player → Option ℤ) (mover : Player) (idx : ℤ) :
    canCreateTuzdyk tuz mover idx = true ↔
      tuz mover = none ∧ idx ≠ 8 ∧ tuz (opponent_of mover) ≠ some idx := by
  rw [canCreateTuzdyk]
  rcases htm : tuz mover with _ | v <;>
    · simp only [htm, Option.isSome_none, Option.isSome_some]
      split_ifs <;> simp_all

lemma applyMove_ok_eq (s : TogyzKumalakState) (p : ℤ) (s' : TogyzKumalakState)
    (h : applyMove s p = .ok s') :
    s' = { pits := (resolveCapture s.player_to_move (opponent_of s.player_to_move)
                      s.tuzdyk_indices (sowStage s p).1 (sowStage s p).2.1
                      (sowStage s p).2.2).1
           kazans := (resolveCapture s.player_to_move (opponent_of s.player_to_move)
                      s.tuzdyk_indices (sowStage s p).1 (sowStage s p).2.1
                      (sowStage s p).2.2).2.1
           tuzdyk_indices := (resolveCapture s.player_to_move
                      (opponent_of s.player_to_move)
                      s.tuzdyk_indices (sowStage s p).1 (sowStage s p).2.1
                      (sowStage s p).2.2).2.2
           player_to_move := opponent_of s.player_to_move
           move_number := s.move_number + 1 } := by
  rw [applyMove] at h
  split at h
  · exact Except.noConfusion h
  · split at h
    · exact Except.noConfusion h
    · simp only [Except.ok.injEq] at h
      exact h.symm

/-- C2: capture and tuzdyk resolution.  For every successful `apply_move`
whose last affected cell lies on the opponent's row and is not itself a
tuzdyk: if the cell now holds exactly 3 stones, the mover owns no tuzdyk,
the row-local index is not 8 and differs from the opponent's tuzdyk index,
then a tuzdyk is created for the mover there, its 3 stones are credited to
the mover's kazan and the cell is zeroed (this check precedes the even
capture); otherwise an even positive count is captured whole; otherwise
the board is left as sown. -/
theorem applyMove_capture_resolution (s : TogyzKumalakState) (p : ℤ)
    (s' : TogyzKumalakState) (h : applyMove s p = .ok s')
    (hrow : (lastCell s p).1 = opponent_of s.player_to_move)
    (htz : tuzdykOwnerAt s.tuzdyk_indices (lastCell s p).1 (lastCell s p).2 = none) :
    ((lastStones s p = 3 ∧ s.tuzdyk_indices s.player_to_move = none ∧
        (lastCell s p).2 ≠ 8 ∧
        s.tuzdyk_indices (opponent_of s.player_to_move) ≠ some (lastCell s p).2) →
      s'.pits = setPit (sownPits s p) (opponent_of s.player_to_move) (lastCell s p).2 0 ∧
      s'.kazans = creditKazan (sownKazans s p) s.player_to_move 3 ∧
      s'.tuzdyk_indices s.player_to_move = some (lastCell s p).2) ∧
    ((¬ (lastStones s p = 3 ∧ s.tuzdyk_indices s.player_to_move = none ∧
        (lastCell s p).2 ≠ 8 ∧
        s.tuzdyk_indices (opponent_of s.player_to_move) ≠ some (lastCell s p).2)) →
      lastStones s p % 2 = 0 → 0 < lastStones s p →
      s'.pits = setPit (sownPits s p) (opponent_of s.player_to_move) (lastCell s p).2 0 ∧
      s'.kazans = creditKazan (sownKazans s p) s.player_to_move (lastStones s p) ∧
      s'.tuzdyk_indices = s.tuzdyk_indices) ∧
    ((¬ (lastStones s p = 3 ∧ s.tuzdyk_indices s.player_to_move = none ∧
        (lastCell s p).2 ≠ 8 ∧
        s.tuzdyk_indices (opponent_of s.player_to_move) ≠ some (lastCell s p).2)) →
      ¬ (lastStones s p % 2 = 0 ∧ 0 < lastStones s p) →
      s'.pits = sownPits s p ∧ s'.kazans = sownKazans s p ∧
      s'.tuzdyk_indices = s.tuzdyk_indices) := by
  have hs := applyMove_ok_eq s p s' h
  subst hs
  simp only [lastStones, lastCell, sownPits, sownKazans] at *
  refine ⟨?_, ?_, ?_⟩
  · rintro ⟨h3, hA, hB, hC⟩
    have hcc : canCreateTuzdyk s.tuzdyk_indices s.player_to_move (sowStage s p).2.2.2 = true :=
      (canCreateTuzdyk_iff _ _ _).mpr ⟨hA, hB, hC⟩
    rw [resolveCapture, if_pos ⟨hrow, htz⟩, if_pos ⟨h3, hcc⟩]
    exact ⟨rfl, rfl, by simp⟩
  · intro hn heven hpos
    have hn' : ¬ (getPit (sowStage s p).1 (opponent_of s.player_to_move)
        (sowStage s p).2.2.2 = 3 ∧
        canCreateTuzdyk s.tuzdyk_indices s.player_to_move (sowStage s p).2.2.2 = true) := by
      rintro ⟨e3, ecc⟩
      exact hn ⟨e3, ((canCreateTuzdyk_iff _ _ _).mp ecc)⟩
    rw [resolveCapture, if_pos ⟨hrow, htz⟩, if_neg hn', if_pos ⟨heven, hpos⟩]
    exact ⟨rfl, rfl, rfl⟩
  · intro hn hne
    have hn' : ¬ (getPit (sowStage s p).1 (opponent_of s.player_to_move)
        (sowStage s p).2.2.2 = 3 ∧
        canCreateTuzdyk s.tuzdyk_indices s.player_to_move (sowStage s p).2.2.2 = true) := by
      rintro ⟨e3, ecc⟩
      exact hn ⟨e3, ((canCreateTuzdyk_iff _ _ _).mp ecc)⟩
    rw [resolveCapture, if_pos ⟨hrow, htz⟩, if_neg hn', if_neg hne]
    exact ⟨rfl, rfl, rfl⟩

/-- Witness for C2: playing White's pit 8 in `tuzdykScenario` makes Black's
pit 0 hold 3 stones and creates White's tuzdyk there. -/
theorem applyMove_capture_resolution_witness :
    tuzdykScenarioNext.pits
        = setPit (sownPits tuzdykScenario 8)
            (opponent_of tuzdykScenario.player_to_move) (lastCell tuzdykScenario 8).2 0 ∧
    tuzdykScenarioNext.kazans
        = creditKazan (sownKazans tuzdykScenario 8) tuzdykScenario.player_to_move 3 ∧
    tuzdykScenarioNext.tuzdyk_indices tuzdykScenario.player_to_move
        = some (lastCell tuzdykScenario 8).2 :=
  (applyMove_capture_resolution tuzdykScenario 8 tuzdykScenarioNext
    (by decide) (by decide) (by decide)).1 (by decide)

/-- Counterexample to C3 as stated: `apply_move(initial, -1)` succeeds even
though `-1` is outside `0..8`, because Python list indexing interprets
`-1` as pit 8 (which is non-empty in the initial position). -/
theorem applyMove_neg_index_accepted :
    applyMove TogyzKumalakState.initial (-1) = .ok negIndexResult := by decide

/-- C3 (amended): `apply_move` raises `IndexError` exactly for pit indices
outside `-9..8`, raises the `IllegalMove` `ValueError` exactly for an index
in `-9..8` whose (Python-normalized) mover pit is empty, and succeeds
exactly for an index in `-9..8` whose mover pit is non-empty; negative
indices address pit `index + 9`. -/
theorem applyMove_rejects (s : TogyzKumalakState) (p : ℤ) :
    (applyMove s p = .error .indexError ↔ 8 < p ∨ p < -9) ∧
    (applyMove s p = .error .illegalMove ↔
      -9 ≤ p ∧ p ≤ 8 ∧ getPit s.pits s.player_to_move p ≤ 0) ∧
    ((applyMove s p).toOption.isSome = true ↔
      -9 ≤ p ∧ p ≤ 8 ∧ 0 < getPit s.pits s.player_to_move p) := by
  rw [applyMove]
  by_cases h1 : 8 < p ∨ p < -9
  · rw [if_pos h1]
    refine ⟨⟨fun _ => h1, fun _ => rfl⟩, ⟨?_, ?_⟩, ⟨?_, ?_⟩⟩
    · intro hh; exact absurd hh (by simp)
    · intro hh; exact absurd h1 (by omega)
    · intro hh; exact absurd hh (by simp [Except.toOption])
    · intro hh; exact absurd h1 (by omega)
  · rw [if_neg h1]
    by_cases h2 : getPit s.pits s.player_to_move p ≤ 0
    · rw [if_pos h2]
      refine ⟨⟨?_, ?_⟩, ⟨fun _ => ⟨by omega, by omega, h2⟩, fun _ => rfl⟩, ⟨?_, ?_⟩⟩
      · intro hh; exact absurd hh (by simp)
      · intro hh; exact absurd hh (by omega)
      · intro hh; exact absurd hh (by simp [Except.toOption])
      · intro hh; exact absurd hh (by omega)
    · rw [if_neg h2]
      refine ⟨⟨?_, ?_⟩, ⟨?_, ?_⟩,
        ⟨fun _ => ⟨by omega, by omega, by omega⟩, fun _ => by simp [Except.toOption]⟩⟩
      · intro hh; exact absurd hh (by simp)
      · intro hh; exact absurd hh (by omega)
      · intro hh; exact absurd hh (by simp)
      · intro hh; exact absurd hh (by omega)

/-- C7: terminal scoring.  On a terminal state, if some kazan is at least
82 the scores are the kazans unchanged; otherwise (atsyrau) every pit still
on the board is added to its own owner's kazan — no stones cross sides. -/
theorem final_scores_terminal (s : TogyzKumalakState) (h : is_terminal s = true) :
    final_scores s =
      if 82 ≤ s.kazans .white ∨ 82 ≤ s.kazans .black then
        (s.kazans .white, s.kazans .black)
      else
        (s.kazans .white + sumPits (s.pits .white),
          s.kazans .black + sumPits (s.pits .black)) := by
  rw [final_scores]
  by_cases h82 : 82 ≤ s.kazans .white ∨ 82 ≤ s.kazans .black
  · rw [if_pos h82, if_pos h82]
  · rw [if_neg h82, if_neg h82]
    have hnw : ¬ 82 ≤ s.kazans .white := fun hx => h82 (Or.inl hx)
    have hnb : ¬ 82 ≤ s.kazans .black := fun hx => h82 (Or.inr hx)
    have hlm : hasLegalMove s = false := by
      rw [is_terminal, decide_eq_false hnw, decide_eq_false hnb] at h
      simpa using h
    rw [if_pos hlm]
    cases hm : s.player_to_move <;> simp [opponent_of, hm]

/-- Witness for C7: the spec's atsyrau scenario gives final scores
`(10, 30)`: Black's remaining 10 stones go to Black's own kazan. -/
theorem final_scores_terminal_witness :
    is_terminal atsyrauExample = true ∧ final_scores atsyrauExample = (10, 30) :=
  ⟨by decide, by rw [final_scores_terminal atsyrauExample (by decide)]; decide⟩

/-- C10: `outcome` is total and returns `none` exactly when the state is
non-terminal or terminal with tied final scores, so a drawn terminal
position and an ongoing game are indistinguishable from its result; the
embedding returns a value (never an exception) on every state. -/
theorem outcome_none_iff (s : TogyzKumalakState) :
    outcome s = none ↔
      (is_terminal s = false ∨ (final_scores s).1 = (final_scores s).2) := by
  rw [outcome]
  by_cases ht : is_terminal s = true
  · rw [if_pos ht]
    have ht' : ¬ is_terminal s = false := by simp [ht]
    by_cases hgt : (final_scores s).2 < (final_scores s).1
    · rw [if_pos hgt]
      constructor
      · intro hh; exact Option.noConfusion hh
      · rintro (hf | hf)
        · exact absurd hf ht'
        · exact absurd hf (by omega)
    · rw [if_neg hgt]
      by_cases hlt : (final_scores s).1 < (final_scores s).2
      · rw [if_pos hlt]
        constructor
        · intro hh; exact Option.noConfusion hh
        · rintro (hf | hf)
          · exact absurd hf ht'
          · exact absurd hf (by omega)
      · rw [if_neg hlt]
        constructor
        · intro _; right; omega
        · intro _; rfl
  · rw [if_neg ht]
    constructor
    · intro _; left; simpa using ht
    · intro _; rfl

section EncodingLemmas

lemma digitVal_digitChar (d : ℕ) (h : d < 10) : digitVal (digitChar d) = some d := by
  interval_cases d <;> rfl

lemma isSomeDigit_ne (c x : Char) (hc : (digitVal c).isSome = true)
    (hx : digitVal x = none) : c ≠ x := by
  intro heq
  rw [heq, hx] at hc
  exact Bool.noConfusion hc

lemma natToCharsAux_append (n : ℕ) : ∀ (fuel : ℕ) (acc : List Char), n < fuel →
    natToCharsAux fuel n acc = natToCharsAux fuel n [] ++ acc := by
  induction n using Nat.strong_induction_on with
  | _ n ih =>
    intro fuel acc hf
    match fuel with
    | 0 => omega
    | f + 1 =>
      by_cases h : n < 10
      · simp [natToCharsAux, h]
      · have hd : n / 10 < n := Nat.div_lt_self (by omega) (by omega)
        have hf' : n / 10 < f := by omega
        simp only [natToCharsAux, if_neg h]
        rw [ih (n / 10) hd f _ hf', ih (n / 10) hd f [digitChar (n % 10)] hf']
        simp

lemma natToCharsAux_fuel (n : ℕ) : ∀ (f1 f2 : ℕ) (acc : List Char),
    n < f1 → n < f2 → natToCharsAux f1 n acc = natToCharsAux f2 n acc := by
  induction n using Nat.strong_induction_on with
  | _ n ih =>
    intro f1 f2 acc h1 h2
    match f1, f2 with
    | 0, _ => omega
    | _ + 1, 0 => omega
    | a + 1, b + 1 =>
      by_cases h : n < 10
      · simp [natToCharsAux, h]
      · have hd : n / 10 < n := Nat.div_lt_self (by omega) (by omega)
        simp only [natToCharsAux, if_neg h]
        exact ih (n / 10) hd a b _ (by omega) (by omega)

lemma natToChars_small (n : ℕ) (h : n < 10) : natToChars n = [digitChar n] := by
  simp [natToChars, natToCharsAux, h]

lemma natToChars_big (n : ℕ) (h : 10 ≤ n) :
    natToChars n = natToChars (n / 10) ++ [digitChar (n % 10)] := by
  have hd : n / 10 < n := Nat.div_lt_self (by omega) (by omega)
  have hstep : natToCharsAux (n + 1) n []
      = natToCharsAux n (n / 10) [digitChar (n % 10)] := by
    simp [natToCharsAux, Nat.not_lt.mpr h]
  rw [natToChars, hstep, natToCharsAux_append (n / 10) n _ hd, natToChars,
    natToCharsAux_fuel (n / 10) n (n / 10 + 1) [] hd (by omega)]

lemma natToChars_ne_nil (n : ℕ) : natToChars n ≠ [] := by
  by_cases h : n < 10
  · rw [natToChars_small n h]; simp
  · rw [natToChars_big n (by omega)]; simp

lemma mem_natToChars_digit (n : ℕ) : ∀ c ∈ natToChars n, (digitVal c).isSome = true := by
  induction n using Nat.strong_induction_on with
  | _ n ih =>
    intro c hc
    by_cases h : n < 10
    · rw [natToChars_small n h] at hc
      simp only [List.mem_singleton] at hc
      subst hc
      rw [digitVal_digitChar n h]
      rfl
    · rw [natToChars_big n (by omega)] at hc
      rw [List.mem_append] at hc
      rcases hc with hc | hc
      · exact ih (n / 10) (Nat.div_lt_self (by omega) (by omega)) c hc
      · simp only [List.mem_singleton] at hc
        subst hc
        rw [digitVal_digitChar _ (Nat.mod_lt _ (by omega))]
        rfl

lemma natToChars_head (n : ℕ) :
    ∃ c cs, natToChars n = c :: cs ∧ (digitVal c).isSome = true := by
  obtain ⟨c, cs, hc⟩ : ∃ c cs, natToChars n = c :: cs := by
    cases hnc : natToChars n with
    | nil => exact absurd hnc (natToChars_ne_nil n)
    | cons a l => exact ⟨a, l, rfl⟩
  exact ⟨c, cs, hc, mem_natToChars_digit n c (by rw [hc]; simp)⟩

lemma parseNatAux_natToChars (n : ℕ) : ∀ (acc : ℕ) (rest : List Char),
    parseNatAux (natToChars n ++ rest) acc
      = parseNatAux rest (acc * 10 ^ (natToChars n).length + n) := by
  induction n using Nat.strong_induction_on with
  | _ n ih =>
    intro acc rest
    by_cases h : n < 10
    · rw [natToChars_small n h]
      simp [parseNatAux, digitVal_digitChar n h]
    · have hd : n / 10 < n := Nat.div_lt_self (by omega) (by omega)
      rw [natToChars_big n (by omega), List.append_assoc, List.singleton_append,
        ih (n / 10) hd acc (digitChar (n % 10) :: rest)]
      simp only [parseNatAux, digitVal_digitChar _ (Nat.mod_lt _ (by omega))]
      congr 1
      have hlen : (natToChars (n / 10) ++ [digitChar (n % 10)]).length
          = (natToChars (n / 10)).length + 1 := by simp
      rw [hlen]
      have hmod : 10 * (n / 10) + n % 10 = n := Nat.div_add_mod n 10
      calc (acc * 10 ^ (natToChars (n / 10)).length + n / 10) * 10 + n % 10
          = acc * (10 ^ (natToChars (n / 10)).length * 10)
              + (10 * (n / 10) + n % 10) := by ring
        _ = acc * 10 ^ ((natToChars (n / 10)).length + 1) + n := by
            rw [hmod, pow_succ]

lemma parseNat_natToChars (n : ℕ) : parseNat (natToChars n) = some n := by
  obtain ⟨c, cs, hc, _⟩ := natToChars_head n
  have h2 := parseNatAux_natToChars n 0 []
  rw [List.append_nil] at h2
  rw [hc] at h2 ⊢
  rw [parseNat, h2]
  simp [parseNatAux]

lemma pyInt_dash (rest : List Char) :
    pyInt ('-' :: rest) = (parseNat rest).map (fun m => -(m : ℤ)) := rfl

lemma pyInt_nodash (c : Char) (rest : List Char) (h : c ≠ '-') :
    pyInt (c :: rest) = (parseNat (c :: rest)).map (fun m => (m : ℤ)) := by
  simp only [pyInt, if_neg h]

lemma pyInt_intToChars (z : ℤ) : pyInt (intToChars z) = some z := by
  rw [intToChars]
  by_cases hz : z < 0
  · rw [if_pos hz, pyInt_dash, parseNat_natToChars]
    have h3 : -(((-z).toNat : ℤ)) = z := by omega
    exact congrArg some h3
  · rw [if_neg hz]
    obtain ⟨c, cs, hc, hd⟩ := natToChars_head z.toNat
    have hcd : c ≠ '-' := isSomeDigit_ne c '-' hd (by decide)
    rw [hc, pyInt_nodash c cs hcd, ← hc, parseNat_natToChars]
    have h3 : ((z.toNat : ℤ)) = z := by omega
    exact congrArg some h3

lemma pySplit_sep_free (sep : Char) (l : List Char) (h : ∀ c ∈ l, c ≠ sep) :
    pySplit sep l = [l] := by
  induction l with
  | nil => rfl
  | cons c cs ih =>
    have hc : c ≠ sep := h c (by simp)
    have ih' := ih (fun x hx => h x (by simp [hx]))
    simp [pySplit, if_neg hc, ih']

lemma pySplit_append (sep : Char) (l1 l2 : List Char) (h : ∀ c ∈ l1, c ≠ sep) :
    pySplit sep (l1 ++ sep :: l2) = l1 :: pySplit sep l2 := by
  induction l1 with
  | nil => simp [pySplit]
  | cons c cs ih =>
    have hc : c ≠ sep := h c (by simp)
    have ih' := ih (fun x hx => h x (by simp [hx]))
    simp [List.cons_append, pySplit, if_neg hc, ih']

lemma pySplit_joinSep (sep : Char) :
    ∀ (parts : List (List Char)), parts ≠ [] →
      (∀ part ∈ parts, ∀ c ∈ part, c ≠ sep) →
      pySplit sep (joinSep sep parts) = parts := by
  intro parts
  induction parts with
  | nil => intro h; exact absurd rfl h
  | cons x rest ih =>
    intro _ hfree
    cases rest with
    | nil =>
      simp only [joinSep]
      exact pySplit_sep_free sep x (hfree x (by simp))
    | cons y rs =>
      simp only [joinSep]
      rw [pySplit_append sep x _ (hfree x (by simp))]
      rw [ih (by simp) (fun part hp c hc => hfree part (by simp [hp]) c hc)]

lemma mem_joinSep (sep : Char) :
    ∀ (parts : List (List Char)) (c : Char), c ∈ joinSep sep parts →
      c = sep ∨ ∃ part ∈ parts, c ∈ part := by
  intro parts
  induction parts with
  | nil => intro c hc; simp [joinSep] at hc
  | cons x rest ih =>
    intro c hc
    cases rest with
    | nil =>
      right
      exact ⟨x, by simp, by simpa [joinSep] using hc⟩
    | cons y rs =>
      simp only [joinSep, List.mem_append, List.mem_cons] at hc
      rcases hc with hc | hc | hc
      · right; exact ⟨x, by simp, hc⟩
      · left; exact hc
      · rcases ih c (by simpa using hc) with hs | ⟨part, hp, hcp⟩
        · left; exact hs
        · right; exact ⟨part, by simp [hp], hcp⟩

lemma intToChars_chars (z : ℤ) (c : Char) (hc : c ∈ intToChars z) :
    c = '-' ∨ (digitVal c).isSome = true := by
  rw [intToChars] at hc
  by_cases hz : z < 0
  · rw [if_pos hz] at hc
    rcases List.mem_cons.mp hc with h | h
    · left; exact h
    · right; exact mem_natToChars_digit _ c h
  · rw [if_neg hz] at hc
    right; exact mem_natToChars_digit _ c hc

lemma intToChars_nonneg (z : ℤ) (hz : 0 ≤ z) : intToChars z = natToChars z.toNat := by
  rw [intToChars, if_neg (by omega)]

lemma intToChars_ne_dash (z : ℤ) : intToChars z ≠ ['-'] := by
  rw [intToChars]
  by_cases hz : z < 0
  · rw [if_pos hz]
    intro h
    have hne := natToChars_ne_nil (-z).toNat
    simp only [List.cons.injEq] at h
    exact hne h.2
  · rw [if_neg hz]
    intro h
    obtain ⟨c, cs, hc, hd⟩ := natToChars_head z.toNat
    rw [hc] at h
    have hcd : c = '-' := by injection h
    exact isSomeDigit_ne c '-' hd (by decide) hcd

lemma tuzChars_chars (t : Option ℤ) (c : Char) (hc : c ∈ tuzChars t) :
    c = '-' ∨ (digitVal c).isSome = true := by
  cases t with
  | none => left; simpa [tuzChars] using hc
  | some v => exact intToChars_chars v c (by simpa [tuzChars] using hc)

lemma rowChars_chars (f : Fin 9 → ℤ) (c : Char) (hc : c ∈ rowChars f) :
    c = '-' ∨ (digitVal c).isSome = true := by
  rw [rowChars] at hc
  rcases mem_joinSep '-' _ c hc with h | ⟨part, hp, hcp⟩
  · left; exact h
  · simp only [List.mem_cons, List.not_mem_nil, or_false] at hp
    rcases hp with rfl | rfl | rfl | rfl | rfl | rfl | rfl | rfl | rfl <;>
      exact intToChars_chars _ c hcp

lemma parseRow_rowChars (f : Fin 9 → ℤ) (hf : ∀ i, 0 ≤ f i) :
    parseRow (rowChars f) = some f := by
  have hfree : ∀ part ∈ [intToChars (f 0), intToChars (f 1), intToChars (f 2),
      intToChars (f 3), intToChars (f 4), intToChars (f 5), intToChars (f 6),
      intToChars (f 7), intToChars (f 8)], ∀ c ∈ part, c ≠ '-' := by
    intro part hp c hc
    simp only [List.mem_cons, List.not_mem_nil, or_false] at hp
    have hdig : (digitVal c).isSome = true := by
      rcases hp with rfl | rfl | rfl | rfl | rfl | rfl | rfl | rfl | rfl <;>
        · rw [intToChars_nonneg _ (hf _)] at hc
          exact mem_natToChars_digit _ c hc
    exact isSomeDigit_ne c '-' hdig (by decide)
  have hsplit := pySplit_joinSep '-' [intToChars (f 0), intToChars (f 1),
    intToChars (f 2), intToChars (f 3), intToChars (f 4), intToChars (f 5),
    intToChars (f 6), intToChars (f 7), intToChars (f 8)] (by simp) hfree
  have hmap : mapIntList [intToChars (f 0), intToChars (f 1), intToChars (f 2),
      intToChars (f 3), intToChars (f 4), intToChars (f 5), intToChars (f 6),
      intToChars (f 7), intToChars (f 8)]
      = some [f 0, f 1, f 2, f 3, f 4, f 5, f 6, f 7, f 8] := by
    simp [mapIntList, pyInt_intToChars]
  rw [parseRow, rowChars, hsplit, hmap]
  simp only [Option.some_bind]
  have hlen : ([f 0, f 1, f 2, f 3, f 4, f 5, f 6, f 7, f 8] : List ℤ).length = 9 := rfl
  rw [if_pos hlen]
  refine congrArg some ?_
  funext i
  fin_cases i <;> rfl

lemma parseTuz_tuzChars (t : Option ℤ) : parseTuz (tuzChars t) = some t := by
  cases t with
  | none => rfl
  | some v =>
    rw [tuzChars, parseTuz, if_neg (intToChars_ne_dash v), pyInt_intToChars]
    rfl

lemma deserialize_serialize (s : TogyzKumalakState)
    (hw : ∀ i, 0 ≤ s.pits .white i) (hb : ∀ i, 0 ≤ s.pits .black i) :
    deserializeFen (serializeFen s) = some s := by
  have hdigit_ne : ∀ (c x : Char), (digitVal c).isSome = true → digitVal x = none →
      c ≠ x := isSomeDigit_ne
  -- characters of each top-level field
  have hP1 : ∀ c ∈ [if s.player_to_move = .white then 'W' else 'B'], c ≠ '|' := by
    intro c hc
    simp only [List.mem_singleton] at hc
    subst hc
    split_ifs <;> decide
  have hP2chars : ∀ c ∈ joinSep ',' [rowChars (s.pits .white), rowChars (s.pits .black)],
      c = ',' ∨ c = '-' ∨ (digitVal c).isSome = true := by
    intro c hc
    rcases mem_joinSep ',' _ c hc with h | ⟨part, hp, hcp⟩
    · left; exact h
    · right
      simp only [List.mem_cons, List.not_mem_nil, or_false] at hp
      rcases hp with rfl | rfl <;> exact rowChars_chars _ c hcp
  have hP3chars : ∀ c ∈ joinSep ',' [intToChars (s.kazans .white), intToChars (s.kazans .black)],
      c = ',' ∨ c = '-' ∨ (digitVal c).isSome = true := by
    intro c hc
    rcases mem_joinSep ',' _ c hc with h | ⟨part, hp, hcp⟩
    · left; exact h
    · right
      simp only [List.mem_cons, List.not_mem_nil, or_false] at hp
      rcases hp with rfl | rfl <;> exact intToChars_chars _ c hcp
  have hP4chars : ∀ c ∈ joinSep ','
      [tuzChars (s.tuzdyk_indices .white), tuzChars (s.tuzdyk_indices .black)],
      c = ',' ∨ c = '-' ∨ (digitVal c).isSome = true := by
    intro c hc
    rcases mem_joinSep ',' _ c hc with h | ⟨part, hp, hcp⟩
    · left; exact h
    · right
      simp only [List.mem_cons, List.not_mem_nil, or_false] at hp
      rcases hp with rfl | rfl <;> exact tuzChars_chars _ c hcp
  have hclasses_ne_bar : ∀ c : Char, (c = ',' ∨ c = '-' ∨ (digitVal c).isSome = true) →
      c ≠ '|' := by
    rintro c (rfl | rfl | hd)
    · decide
    · decide
    · exact hdigit_ne c '|' hd (by decide)
  have h5 : pySplit '|' (serializeFen s) =
      [[if s.player_to_move = .white then 'W' else 'B'],
        joinSep ',' [rowChars (s.pits .white), rowChars (s.pits .black)],
        joinSep ',' [intToChars (s.kazans .white), intToChars (s.kazans .black)],
        joinSep ',' [tuzChars (s.tuzdyk_indices .white), tuzChars (s.tuzdyk_indices .black)],
        intToChars s.move_number] := by
    rw [serializeFen]
    refine pySplit_joinSep '|' _ (by simp) ?_
    intro part hp c hc
    simp only [List.mem_cons, List.not_mem_nil, or_false] at hp
    rcases hp with rfl | rfl | rfl | rfl | rfl
    · exact hP1 c hc
    · exact hclasses_ne_bar c (hP2chars c hc)
    · exact hclasses_ne_bar c (hP3chars c hc)
    · exact hclasses_ne_bar c (hP4chars c hc)
    · exact hclasses_ne_bar c (by
        rcases intToChars_chars _ c hc with h | h
        · right; left; exact h
        · right; right; exact h)
  have hrow_ne_comma : ∀ (f : Fin 9 → ℤ), ∀ c ∈ rowChars f, c ≠ ',' := by
    intro f c hc
    rcases rowChars_chars f c hc with rfl | hd
    · decide
    · exact hdigit_ne c ',' hd (by decide)
  have hP2split : pySplit ',' (joinSep ',' [rowChars (s.pits .white), rowChars (s.pits .black)])
      = [rowChars (s.pits .white), rowChars (s.pits .black)] := by
    refine pySplit_joinSep ',' _ (by simp) ?_
    intro part hp c hc
    simp only [List.mem_cons, List.not_mem_nil, or_false] at hp
    rcases hp with rfl | rfl <;> exact hrow_ne_comma _ c hc
  have hint_ne_comma : ∀ (z : ℤ), ∀ c ∈ intToChars z, c ≠ ',' := by
    intro z c hc
    rcases intToChars_chars z c hc with rfl | hd
    · decide
    · exact hdigit_ne c ',' hd (by decide)
  have hP3split : pySplit ','
      (joinSep ',' [intToChars (s.kazans .white), intToChars (s.kazans .black)])
      = [intToChars (s.kazans .white), intToChars (s.kazans .black)] := by
    refine pySplit_joinSep ',' _ (by simp) ?_
    intro part hp c hc
    simp only [List.mem_cons, List.not_mem_nil, or_false] at hp
    rcases hp with rfl | rfl <;> exact hint_ne_comma _ c hc
  have htuz_ne_comma : ∀ (t : Option ℤ), ∀ c ∈ tuzChars t, c ≠ ',' := by
    intro t c hc
    rcases tuzChars_chars t c hc with rfl | hd
    · decide
    · exact hdigit_ne c ',' hd (by decide)
  have hP4split : pySplit ','
      (joinSep ',' [tuzChars (s.tuzdyk_indices .white), tuzChars (s.tuzdyk_indices .black)])
      = [tuzChars (s.tuzdyk_indices .white), tuzChars (s.tuzdyk_indices .black)] := by
    refine pySplit_joinSep ',' _ (by simp) ?_
    intro part hp c hc
    simp only [List.mem_cons, List.not_mem_nil, or_false] at hp
    rcases hp with rfl | rfl <;> exact htuz_ne_comma _ c hc
  rw [deserializeFen, h5]
  simp only [hP2split, parseRow_rowChars (s.pits .white) hw,
    parseRow_rowChars (s.pits .black) hb, hP3split, pyInt_intToChars, hP4split,
    parseTuz_tuzChars]
  refine congrArg some ?_
  cases s with
  | mk pits kazans tuz ptm mv =>
    simp only
    congr 1
    · funext pl; cases pl <;> rfl
    · funext pl; cases pl <;> rfl
    · funext pl; cases pl <;> rfl
    · cases ptm <;> rfl

end EncodingLemmas

/-- Counterexample to C4 as stated: the serialized form of the all-zero
board deserializes successfully although its seed sum is 0, not 162 — no
conservation validation is performed before returning a state. -/
theorem deserializeFen_accepts_nonconserving :
    deserializeFen (serializeFen zeroState) = some zeroState ∧
      totalSeeds zeroState = 0 := by
  constructor <;> decide

/-- C4 (amended): `deserialize_fen` performs no semantic validation: every
well-shaped serialized state is accepted and returned verbatim, with no
check of the 162-seed invariant (and none of kazan sign or tuzdyk range);
rejection happens only when parsing itself fails. -/
theorem deserializeFen_no_validation (s : TogyzKumalakState)
    (hw : ∀ i, 0 ≤ s.pits .white i) (hb : ∀ i, 0 ≤ s.pits .black i) :
    deserializeFen (serializeFen s) = some s :=
  deserialize_serialize s hw hb

/-- Witness for C4 (amended): the all-zero state round-trips even though
its seed sum is 0. -/
theorem deserializeFen_no_validation_witness :
    (∀ i, 0 ≤ zeroState.pits .white i) ∧
      deserializeFen (serializeFen zeroState) = some zeroState :=
  ⟨by decide, deserializeFen_no_validation zeroState (by decide) (by decide)⟩

section NonnegInvariant

lemma setPit_nonneg (pits : Pits) (side : Player) (idx v : ℤ)
    (hp : ∀ pl i, 0 ≤ pits pl i) (hv : 0 ≤ v) :
    ∀ pl i, 0 ≤ setPit pits side idx v pl i := by
  intro pl i
  simp only [setPit]
  split_ifs with h1
  · rw [Function.update_apply]
    split_ifs with h2
    · exact hv
    · exact hp _ _
  · exact hp _ _

lemma bumpPit_nonneg (pits : Pits) (side : Player) (idx : ℤ)
    (hp : ∀ pl i, 0 ≤ pits pl i) :
    ∀ pl i, 0 ≤ bumpPit pits side idx pl i := by
  intro pl i
  refine setPit_nonneg pits side idx _ hp ?_ pl i
  have h := hp side (normIdx idx)
  simp only [getPit]
  omega

lemma sowLoop_nonneg (tuz : Player → Option ℤ) :
    ∀ (n : ℕ) (pits : Pits) (kaz : Player → ℤ) (cur last : Pos),
      (∀ pl i, 0 ≤ pits pl i) →
      ∀ pl i, 0 ≤ (sowLoop tuz n pits kaz cur last).1 pl i := by
  intro n
  induction n with
  | zero => intro pits kaz cur last hp pl i; simpa [sowLoop] using hp pl i
  | succ m ih =>
    intro pits kaz cur last hp pl i
    rw [sowLoop]
    cases htuz : tuzdykOwnerAt tuz cur.1 cur.2 with
    | some owner => exact ih pits _ _ _ hp pl i
    | none => exact ih _ kaz _ _ (bumpPit_nonneg pits cur.1 cur.2 hp) pl i

lemma resolveCapture_nonneg (mover opp : Player) (tuz : Player → Option ℤ)
    (pits : Pits) (kaz : Player → ℤ) (last : Pos)
    (hp : ∀ pl i, 0 ≤ pits pl i) :
    ∀ pl i, 0 ≤ (resolveCapture mover opp tuz pits kaz last).1 pl i := by
  intro pl i
  rw [resolveCapture]
  split_ifs <;>
    first
      | exact setPit_nonneg pits opp last.2 0 hp (le_refl 0) pl i
      | exact hp pl i

lemma applyMove_pits_nonneg (s : TogyzKumalakState) (p : ℤ) (s' : TogyzKumalakState)
    (hp : ∀ pl i, 0 ≤ s.pits pl i) (h : applyMove s p = .ok s') :
    ∀ pl i, 0 ≤ s'.pits pl i := by
  rw [applyMove_ok_eq s p s' h]
  intro pl i
  refine resolveCapture_nonneg _ _ _ _ _ _ ?_ pl i
  intro pl2 i2
  have hbase : ∀ pl i, 0 ≤ (if 1 < getPit s.pits s.player_to_move p
      then bumpPit (setPit s.pits s.player_to_move p 0) s.player_to_move p
      else setPit s.pits s.player_to_move p 0) pl i := by
    split_ifs
    · exact bumpPit_nonneg _ _ _ (setPit_nonneg _ _ _ 0 hp (le_refl 0))
    · exact setPit_nonneg _ _ _ 0 hp (le_refl 0)
  exact sowLoop_nonneg s.tuzdyk_indices _ _ _ _ _ hbase pl2 i2

lemma Reachable_nonneg (s : TogyzKumalakState) (h : Reachable s) :
    ∀ pl i, 0 ≤ s.pits pl i := by
  induction h with
  | init => intro pl i; simp [TogyzKumalakState.initial]
  | step s p s' hr hp0 hp8 hok ih => exact applyMove_pits_nonneg s p s' ih hok

end NonnegInvariant

/-- C9: serialization round-trip.  Every state reachable from `initial()`
by legal moves deserializes from its serialized form to a structurally
equal state (pits, kazans, tuzdyk options, player to move, move number). -/
theorem roundtrip_reachable (s : TogyzKumalakState) (h : Reachable s) :
    deserializeFen (serializeFen s) = some s :=
  deserialize_serialize s (fun i => Reachable_nonneg s h .white i)
    (fun i => Reachable_nonneg s h .black i)

/-- Witness for C9: the initial state round-trips. -/
theorem roundtrip_reachable_witness :
    deserializeFen (serializeFen TogyzKumalakState.initial)
      = some TogyzKumalakState.initial :=
  roundtrip_reachable TogyzKumalakState.initial Reachable.init

section TableLemmas

lemma mctsSearch_snd (f : InferFn) (cpuct frac : ℚ) (sqrtFn : ℚ → ℚ)
    (numSims fuel : ℕ) (noise : List ℚ) (t : Table) (root : TogyzKumalakState) :
    (mctsSearch f cpuct frac sqrtFn numSims fuel noise t root).2
      = runSims f cpuct sqrtFn fuel root numSims
          (setTable (getOrCreateNode t root).2 (state_key (canonicalize root))
            (addRootDirichlet frac noise
              (ensureExpanded f (getOrCreateNode t root).1 root))) := by
  rw [mctsSearch]
  split <;> rfl

lemma lookupTable_setTable (t : Table) (kNew : StateKey) (n : Node ℚ)
    (k : StateKey) (h : (lookupTable t k).isSome = true) :
    (lookupTable (setTable t kNew n) k).isSome = true := by
  induction t with
  | nil => simp [lookupTable] at h
  | cons p t ih =>
    obtain ⟨k0, n0⟩ := p
    rw [setTable]
    split_ifs with he
    · rw [lookupTable]
      split_ifs with h2
      · rfl
      · rw [lookupTable, if_neg (by rw [he]; exact h2)] at h
        exact h
    · rw [lookupTable] at h ⊢
      split_ifs at h ⊢ with h2
      · rfl
      · exact ih h

lemma getOrCreateNode_monotone (t : Table) (s : TogyzKumalakState)
    (k : StateKey) (h : (lookupTable t k).isSome = true) :
    (lookupTable (getOrCreateNode t s).2 k).isSome = true := by
  rw [getOrCreateNode]
  cases hl : lookupTable t (state_key (canonicalize s)) with
  | some n => exact h
  | none => exact lookupTable_setTable t _ _ k h

lemma backprop_monotone : ∀ (path : List (StateKey × ℕ)) (t : Table) (v : ℚ)
    (k : StateKey), (lookupTable t k).isSome = true →
    (lookupTable (backprop t v path) k).isSome = true := by
  intro path
  induction path with
  | nil => intro t v k h; exact h
  | cons p rest ih =>
    intro t v k h
    obtain ⟨k0, a⟩ := p
    rw [backprop]
    refine ih _ _ k ?_
    cases hl : lookupTable t k0 with
    | some n => exact lookupTable_setTable t _ _ k h
    | none => exact h

lemma mctsEvaluate_monotone (f : InferFn) (s : TogyzKumalakState) (t : Table)
    (k : StateKey) (h : (lookupTable t k).isSome = true) :
    (lookupTable (mctsEvaluate f s t).2 k).isSome = true := by
  rw [mctsEvaluate]
  by_cases ht : is_terminal s = true
  · rw [if_pos ht]
    exact h
  · rw [if_neg ht]
    have h1 : (lookupTable (getOrCreateNode t s).2 k).isSome = true :=
      getOrCreateNode_monotone t s k h
    by_cases hc : ((getOrCreateNode t s).1).children.isEmpty = true
    · rw [if_pos hc]
      exact lookupTable_setTable _ _ _ k h1
    · rw [if_neg hc]
      exact h1

lemma descend_monotone (f : InferFn) (cpuct : ℚ) (sqrtFn : ℚ → ℚ) :
    ∀ (fuel : ℕ) (s : TogyzKumalakState) (t : Table) (path : List (StateKey × ℕ))
      (k : StateKey), (lookupTable t k).isSome = true →
      (lookupTable (descendTable (descend f cpuct sqrtFn fuel s t path)) k).isSome
        = true := by
  intro fuel
  induction fuel with
  | zero => intro s t path k h; exact h
  | succ m ih =>
    intro s t path k h
    simp only [descend]
    have h2 : (lookupTable (setTable (getOrCreateNode t s).2
        (state_key (canonicalize s))
        (ensureExpanded f (getOrCreateNode t s).1 s)) k).isSome = true :=
      lookupTable_setTable _ _ _ k (getOrCreateNode_monotone t s k h)
    by_cases hce : (ensureExpanded f (getOrCreateNode t s).1 s).children.isEmpty = true
    · rw [if_pos hce]
      exact h2
    · rw [if_neg hce]
      split
      · exact h2
      · split
        · exact h2
        · rename_i a _hsel s2 _hap
          have h3 : (lookupTable (getOrCreateNode (setTable (getOrCreateNode t s).2
              (state_key (canonicalize s))
              (ensureExpanded f (getOrCreateNode t s).1 s)) s2).2 k).isSome = true :=
            getOrCreateNode_monotone _ s2 k h2
          by_cases hterm : is_terminal s2 = true
          · rw [if_pos hterm]
            exact h3
          · rw [if_neg hterm]
            exact ih s2 _ _ k h3

lemma simulate_monotone (f : InferFn) (cpuct : ℚ) (sqrtFn : ℚ → ℚ) (fuel : ℕ)
    (root : TogyzKumalakState) (t : Table) (k : StateKey)
    (h : (lookupTable t k).isSome = true) :
    (lookupTable (simulate f cpuct sqrtFn fuel root t) k).isSome = true := by
  rw [simulate]
  have h0 := descend_monotone f cpuct sqrtFn fuel root t [] k h
  cases hd : descend f cpuct sqrtFn fuel root t [] with
  | inl t2 =>
    rw [hd] at h0
    exact h0
  | inr res =>
    obtain ⟨leaf, t1, path⟩ := res
    rw [hd] at h0
    exact backprop_monotone path.reverse _ _ k (mctsEvaluate_monotone f leaf t1 k h0)

lemma runSims_monotone (f : InferFn) (cpuct : ℚ) (sqrtFn : ℚ → ℚ) (fuel : ℕ)
    (root : TogyzKumalakState) : ∀ (m : ℕ) (t : Table) (k : StateKey),
    (lookupTable t k).isSome = true →
    (lookupTable (runSims f cpuct sqrtFn fuel root m t) k).isSome = true := by
  intro m
  induction m with
  | zero => intro t k h; exact h
  | succ mm ih =>
    intro t k h
    exact ih _ k (simulate_monotone f cpuct sqrtFn fuel root t k h)

end TableLemmas

/-- Counterexample to C5 as stated: with zero simulations requested, a
first `search` call from the initial position leaves the root node in
`self._table`; the engine state handed to any later `search` call therefore
still contains a node created by the earlier call, so a search does not
start with an empty table. -/
theorem table_retained_across_search :
    (lookupTable
        (mctsSearch uniformInfer 1 (1 / 4) id 0 0 [] [] TogyzKumalakState.initial).2
        (state_key (canonicalize TogyzKumalakState.initial))).isSome = true := by
  rw [mctsSearch_snd]
  decide

/-- C5 (amended): the transposition table lives as long as the engine
instance: `__init__` creates it once and `search` never clears it, so every
node present in the table before a `search` call is still present after it
(and a node created by one call is seen by all later calls). -/
theorem table_persists_across_search (f : InferFn) (cpuct frac : ℚ)
    (sqrtFn : ℚ → ℚ) (numSims fuel : ℕ) (noise : List ℚ) (t : Table)
    (root : TogyzKumalakState) (k : StateKey)
    (h : (lookupTable t k).isSome = true) :
    (lookupTable (mctsSearch f cpuct frac sqrtFn numSims fuel noise t root).2 k).isSome
      = true := by
  rw [mctsSearch_snd]
  exact runSims_monotone f cpuct sqrtFn fuel root numSims _ k
    (lookupTable_setTable _ _ _ k (getOrCreateNode_monotone t root k h))

/-- Witness for C5 (amended): a node present before a one-simulation search
is still present afterwards. -/
theorem table_persists_across_search_witness :
    (lookupTable [(state_key (canonicalize TogyzKumalakState.initial),
        Node.mk (1 : ℚ) none 0 0 [])]
      (state_key (canonicalize TogyzKumalakState.initial))).isSome = true ∧
    (lookupTable (mctsSearch uniformInfer 1 (1 / 4) id 1 1 []
        [(state_key (canonicalize TogyzKumalakState.initial),
          Node.mk (1 : ℚ) none 0 0 [])]
        TogyzKumalakState.initial).2
      (state_key (canonicalize TogyzKumalakState.initial))).isSome = true :=
  ⟨by decide,
    table_persists_across_search uniformInfer 1 (1 / 4) id 1 1 [] _ _ _ (by decide)⟩

/-- C8: a terminal simulation leaf never invokes the evaluator — the result
of `_evaluate` is independent of the inference function (and
`_ensure_expanded` returns without touching it) — and the value it returns
is `+1` when the terminal outcome favors the state's mover, `-1` when it
favors the opponent, `0` on a draw. -/
theorem terminal_leaf_never_evaluated (f g : InferFn) (n : Node ℚ)
    (s : TogyzKumalakState) (t : Table) (h : is_terminal s = true) :
    mctsEvaluate f s t = ((if outcome s = some s.player_to_move then 1
        else if outcome s = none then 0 else -1 : ℚ), t) ∧
    mctsEvaluate g s t = mctsEvaluate f s t ∧
    ensureExpanded f n s = n := by
  have hval : terminalValue s = (if outcome s = some s.player_to_move then 1
      else if outcome s = none then 0 else -1 : ℚ) := by
    rw [terminalValue]
    cases ho : outcome s with
    | none => simp
    | some w =>
      by_cases hw : w = s.player_to_move
      · subst hw; simp
      · simp [hw]
  refine ⟨?_, ?_, ?_⟩
  · rw [mctsEvaluate, if_pos h, hval]
  · rw [mctsEvaluate, if_pos h, mctsEvaluate, if_pos h]
  · rw [ensureExpanded, if_pos (Or.inr h)]

/-- Witness for C8: the atsyrau position (Black wins 10 - 30) is terminal
and `_evaluate` returns `-1` for White to move, with any evaluator. -/
theorem terminal_leaf_never_evaluated_witness :
    is_terminal atsyrauExample = true ∧
      (mctsEvaluate uniformInfer atsyrauExample []).1 = (-1 : ℚ) := by
  refine ⟨by decide, ?_⟩
  rw [(terminal_leaf_never_evaluated uniformInfer uniformInfer
    (Node.mk 1 none 0 0 []) atsyrauExample [] (by decide)).1]
  decide

section SelectionLemmas

lemma selFold_const {α : Type} [LinearOrderedField α] (g : ℕ × Node α → α) :
    ∀ (l : List (ℕ × Node α)) (init : α × Option ℕ),
      (∀ pr ∈ l, g pr ≤ init.1) → selFold g l init = init := by
  intro l
  induction l with
  | nil => intro init _; rfl
  | cons p l ih =>
    intro init hle
    simp only [selFold, List.foldl_cons]
    rw [if_neg (not_lt.mpr (hle p (by simp)))]
    exact ih init (fun pr hpr => hle pr (by simp [hpr]))

lemma selFold_argmax {α : Type} [LinearOrderedField α] (g : ℕ × Node α → α) :
    ∀ (l : List (ℕ × Node α)) (init : α × Option ℕ),
      (∃ pr ∈ l, init.1 < g pr) →
      ∃ l1 pa l2, l = l1 ++ pa :: l2 ∧
        selFold g l init = (g pa, some pa.1) ∧
        (∀ pr ∈ l1, g pr < g pa) ∧ (∀ pr ∈ l2, g pr ≤ g pa) ∧ init.1 < g pa := by
  intro l
  induction l with
  | nil =>
    rintro init ⟨pr, hpr, _⟩
    exact absurd hpr (List.not_mem_nil pr)
  | cons p l ih =>
    intro init hex
    simp only [selFold, List.foldl_cons]
    by_cases hp : init.1 < g p
    · rw [if_pos hp]
      by_cases hall : ∀ pr ∈ l, g pr ≤ g p
      · have hfold : selFold g l (g p, some p.1) = (g p, some p.1) :=
          selFold_const g l (g p, some p.1) hall
        exact ⟨[], p, l, rfl, hfold, by simp, hall, hp⟩
      · push_neg at hall
        obtain ⟨q, hq, hgq⟩ := hall
        obtain ⟨l1, pa, l2, heq, hsel, h1, h2, h3⟩ :=
          ih (g p, some p.1) ⟨q, hq, hgq⟩
        refine ⟨p :: l1, pa, l2, by simp [heq], hsel, ?_, h2, lt_trans hp h3⟩
        intro pr hpr
        rcases List.mem_cons.mp hpr with hpr1 | hpr2
        · rw [hpr1]; exact h3
        · exact h1 pr hpr2
    · rw [if_neg hp]
      have hex2 : ∃ pr ∈ l, init.1 < g pr := by
        obtain ⟨pr, hpr, hg⟩ := hex
        rcases List.mem_cons.mp hpr with hpr1 | hpr2
        · exact absurd (hpr1 ▸ hg) hp
        · exact ⟨pr, hpr2, hg⟩
      obtain ⟨l1, pa, l2, heq, hsel, h1, h2, h3⟩ := ih init hex2
      refine ⟨p :: l1, pa, l2, by simp [heq], hsel, ?_, h2, h3⟩
      intro pr hpr
      rcases List.mem_cons.mp hpr with hpr1 | hpr2
      · rw [hpr1]; exact lt_of_le_of_lt (not_lt.mp hp) h3
      · exact h1 pr hpr2

end SelectionLemmas

/-- C6 (amended): for a node with at least one child (children keyed in
ascending action order, as the expansion code inserts them, and all scores
above the `-1e9` seed), `_select_child` returns the action maximizing
`value + c_puct * prior * sqrt(N) / (1 + child_visits)` where
`N = 1 + the sum of the children's visit counts` (the node's own
`visit_count` field is never read), breaking ties by the lowest action. -/
theorem selectChild_puct_argmax (cpuct : ℝ) (children : List (ℕ × Node ℝ))
    (hne : children ≠ [])
    (hsorted : children.Pairwise (fun a b => a.1 < b.1))
    (hbig : ∀ pr ∈ children,
      -(10 ^ 9 : ℝ) < puctScore cpuct Real.sqrt (selectTotal children) pr.2) :
    ∃ pa ∈ children,
      selectChild cpuct Real.sqrt children = some pa.1 ∧
      (∀ pr ∈ children,
        puctScore cpuct Real.sqrt (selectTotal children) pr.2
          ≤ puctScore cpuct Real.sqrt (selectTotal children) pa.2) ∧
      (∀ pr ∈ children,
        puctScore cpuct Real.sqrt (selectTotal children) pr.2
          = puctScore cpuct Real.sqrt (selectTotal children) pa.2 →
        pa.1 ≤ pr.1) := by
  obtain ⟨p0, l0, hl⟩ : ∃ p0 l0, children = p0 :: l0 := by
    cases children with
    | nil => exact absurd rfl hne
    | cons a l => exact ⟨a, l, rfl⟩
  have hex : ∃ pr ∈ children,
      ((-(10 ^ 9 : ℝ), (none : Option ℕ))).1 < (fun pr : ℕ × Node ℝ =>
        puctScore cpuct Real.sqrt (selectTotal children) pr.2) pr :=
    ⟨p0, by rw [hl]; simp, hbig p0 (by rw [hl]; simp)⟩
  obtain ⟨l1, pa, l2, heq, hsel, h1, h2, h3⟩ :=
    selFold_argmax (fun pr : ℕ × Node ℝ =>
      puctScore cpuct Real.sqrt (selectTotal children) pr.2) children _ hex
  have hpa_mem : pa ∈ children := by rw [heq]; simp
  refine ⟨pa, hpa_mem, ?_, ?_, ?_⟩
  · show (selFold (fun pr : ℕ × Node ℝ =>
      puctScore cpuct Real.sqrt (selectTotal children) pr.2) children
        (-(10 ^ 9 : ℝ), none)).2 = some pa.1
    rw [hsel]
  · intro pr hpr
    rw [heq] at hpr
    rcases List.mem_append.mp hpr with hpr1 | hpr2
    · exact le_of_lt (h1 pr hpr1)
    · rcases List.mem_cons.mp hpr2 with hpr3 | hpr4
      · rw [hpr3]
      · exact h2 pr hpr4
  · intro pr hpr hpreq
    rw [heq] at hpr hsorted
    rcases List.mem_append.mp hpr with hpr1 | hpr2
    · exact absurd hpreq (ne_of_lt (h1 pr hpr1))
    · rcases List.mem_cons.mp hpr2 with hpr3 | hpr4
      · rw [hpr3]
      · have hpw := (List.pairwise_append.mp hsorted).2.1
        exact le_of_lt ((List.pairwise_cons.mp hpw).1 pr hpr4)

/-- Witness for C6 (amended): a single-child node selects its only action. -/
theorem selectChild_puct_argmax_witness :
    ∃ pa ∈ [((2 : ℕ), (Node.mk 0 none 0 0 [] : Node ℝ))],
      selectChild 1 Real.sqrt [((2 : ℕ), (Node.mk 0 none 0 0 [] : Node ℝ))]
        = some pa.1 ∧
      (∀ pr ∈ [((2 : ℕ), (Node.mk 0 none 0 0 [] : Node ℝ))],
        puctScore 1 Real.sqrt
          (selectTotal [((2 : ℕ), (Node.mk 0 none 0 0 [] : Node ℝ))]) pr.2
          ≤ puctScore 1 Real.sqrt
            (selectTotal [((2 : ℕ), (Node.mk 0 none 0 0 [] : Node ℝ))]) pa.2) ∧
      (∀ pr ∈ [((2 : ℕ), (Node.mk 0 none 0 0 [] : Node ℝ))],
        puctScore 1 Real.sqrt
          (selectTotal [((2 : ℕ), (Node.mk 0 none 0 0 [] : Node ℝ))]) pr.2
          = puctScore 1 Real.sqrt
            (selectTotal [((2 : ℕ), (Node.mk 0 none 0 0 [] : Node ℝ))]) pa.2 →
        pa.1 ≤ pr.1) :=
  selectChild_puct_argmax 1 [((2 : ℕ), Node.mk 0 none 0 0 [])] (by simp)
    (by simp)
    (by
      intro pr hpr
      simp only [List.mem_singleton] at hpr
      rw [hpr]
      norm_num [puctScore, Node.value, Node.prior, Node.visitCount])

/-- Counterexample to C6 as stated: reading `parent_total_visits` as the
parent node's own visit count (0 for every table node, and in `parentC6`),
both children of `parentC6` score `0` under the claim's formula (since
`sqrt 0 = 0`), so the claim requires the tie-break answer, action `0`.
The code instead uses `1 + sum of child visit counts = 1` under the radical
and returns action `1`, whose prior is larger. -/
theorem selectChild_parent_visits_counterexample :
    selectChild 1 Real.sqrt (Node.children (parentC6 : Node ℝ)) = some 1 ∧
    claimPuctScore 1 Real.sqrt (parentC6 : Node ℝ) (Node.mk 0 none 0 0 [])
      = claimPuctScore 1 Real.sqrt (parentC6 : Node ℝ)
          (Node.mk (1 / 2) none 0 0 []) := by
  constructor
  · simp only [parentC6, Node.children, selectChild, selFold, selectTotal,
      List.foldl_cons, List.foldl_nil, List.map_cons, List.map_nil, List.sum_cons,
      List.sum_nil, puctScore, Node.value, Node.prior, Node.visitCount]
    norm_num [Real.sqrt_one]
  · simp [claimPuctScore, parentC6, Node.value, Node.prior, Node.visitCount,
      Real.sqrt_zero]

end Togyz
